import Mathlib

/-!
Verification development for the entity-recognition core of the repository:
a shallow embedding, in Lean 4, of the Python modules
`apps/api/app/services/aho_corasick_matcher.py`,
`apps/api/app/services/entity_recognizer.py` and
`apps/api/app/services/fuzzy_matcher.py`, together with proofs and
refutations of the specified properties.

Conventions of the embedding:
* Python strings are `String` (for vocabulary items) or `List Char`
  (for scanned texts, where positional indexing matters).
* Python integers are `Int`; match positions are `Int` because the
  resolver compares them with the sentinel `-1`.
* Python floats (confidence scores) are `ℚ`.
* Python's stable `sorted(..., key=...)` is `List.insertionSort` with the
  corresponding total preorder: all stable sorts of a list under a total
  preorder agree, and `List.insertionSort` is stable.
* `while` loops whose termination is not structural take an explicit fuel
  argument; a scan returns `none` when the fuel is exhausted, so
  "`= none` for every fuel" expresses that the Python loop diverges.
-/

namespace GreenGain

/-- `str.lower()` / `str.strip()` modelled character-wise (Lean's
  built-in `String.toLower`/`String.trim` are defined by byte-position
  recursion that the kernel cannot evaluate; on the ASCII vocabulary of
  this code base the character-wise versions agree with Python). -/
def strToLower (s : String) : String := String.mk (s.toList.map Char.toLower)

def strTrim (s : String) : String :=
  String.mk ((s.toList.dropWhile Char.isWhitespace).reverse.dropWhile
    Char.isWhitespace).reverse

/-- One match dictionary as produced by `AhoCorasickMatcher.find_all`:
  keys `text`, `pattern`, `start`, `end` plus the flattened metadata keys
  `type`, `display_name`, `id`, `confidence`.  The Python key `end` is
  the field `stop` here (`end` is a Lean keyword). -/
structure MatchRec where
  text : List Char
  pattern : String
  start : Int
  stop : Int
  type : String
  display_name : String
  id : Option String
  confidence : ℚ
deriving DecidableEq, Inhabited

/-- The `type_priority` dictionary of `EntityMatcher._resolve_overlaps`:
  `manufacturer > brand > product > category > metric > time_period`
  (lower number wins).  `none` models absence from the dictionary. -/
def type_priority : String → Option Nat
  | "manufacturer" => some 1
  | "brand" => some 2
  | "product" => some 3
  | "category" => some 4
  | "metric" => some 5
  | "time_period" => some 6
  | _ => none

/-- The sort key of `_resolve_overlaps`:
  `sorted(matches, key=lambda x: (x["start"], -x["end"]))` as a total
  preorder (start ascending, then end descending). -/
def startEndKey (a b : MatchRec) : Prop :=
  a.start < b.start ∨ (a.start = b.start ∧ b.stop ≤ a.stop)

instance : DecidableRel startEndKey := fun a b => by
  unfold startEndKey; infer_instance

instance : IsTotal MatchRec startEndKey :=
  ⟨by intro a b; unfold startEndKey; omega⟩

instance : IsTrans MatchRec startEndKey :=
  ⟨by intro a b c; unfold startEndKey; omega⟩

/-- The main loop of `EntityMatcher._resolve_overlaps`, iterating over the
  sorted matches with the accumulator `resolved` and the variable
  `last_end` (initially `-1`).  A match starting at or after `last_end`
  is appended; otherwise, if both the match's type and the type of
  `resolved[-1]` are in `type_priority` and the new match's priority
  number is strictly smaller, the new match replaces `resolved[-1]`. -/
def resolveLoop : List MatchRec → List MatchRec → Int → List MatchRec
  | [], resolved, _ => resolved
  | m :: rest, resolved, last_end =>
    if last_end ≤ m.start then
      resolveLoop rest (resolved ++ [m]) m.stop
    else
      match type_priority m.type, resolved.getLast? with
      | some pm, some last_match =>
        match type_priority last_match.type with
        | some pl =>
          if pm < pl then resolveLoop rest (resolved.dropLast ++ [m]) m.stop
          else resolveLoop rest resolved last_end
        | none => resolveLoop rest resolved last_end
      | _, _ => resolveLoop rest resolved last_end

/-- `EntityMatcher._resolve_overlaps`. -/
def resolve_overlaps (ms : List MatchRec) : List MatchRec :=
  if ms = [] then []
  else resolveLoop (List.insertionSort startEndKey ms) [] (-1)

/-- Two spans `[start, stop)` share no character position. -/
def spansDisjoint (a b : MatchRec) : Prop :=
  ∀ k : Int, ¬(a.start ≤ k ∧ k < a.stop ∧ b.start ≤ k ∧ k < b.stop)

/-- Invariant relation carried through the resolver loop: the left match
  ends at or before the right one starts, and starts no later. -/
def ResolvedP (a b : MatchRec) : Prop := a.stop ≤ b.start ∧ a.start ≤ b.start

/-- Modelled from the spec, section 4.3 (claim C1's algorithm, to be
  compared with `resolve_overlaps` from the source): sort Matches by span
  length descending, then by `start` ascending. -/
def specLengthKey (a b : MatchRec) : Prop :=
  b.stop - b.start < a.stop - a.start ∨
    (b.stop - b.start = a.stop - a.start ∧ a.start ≤ b.start)

instance : DecidableRel specLengthKey := fun a b => by
  unfold specLengthKey; infer_instance

/-- Two spans share at least one character position (computable form of
  the negation of `spansDisjoint`). -/
def overlapsB (a b : MatchRec) : Bool := max a.start b.start < min a.stop b.stop

/-- Modelled from the spec, section 4.3 (claim C1's algorithm): greedily
  accept a Match if and only if no character position in `[start, stop)`
  has already been claimed by a previously accepted Match. -/
def spec_resolve_overlaps (ms : List MatchRec) : List MatchRec :=
  (List.insertionSort specLengthKey ms).foldl
    (fun claimed m =>
      if claimed.all fun p => !(overlapsB p m) then claimed ++ [m] else claimed)
    []

/-- Concrete matches refuting claim C1: two overlapping brand matches,
  `[0, 5)` and `[3, 10)`. -/
def mShort : MatchRec :=
  { text := [], pattern := "", start := 0, stop := 5, type := "brand",
    display_name := "short", id := none, confidence := 1 }

def mLong : MatchRec :=
  { text := [], pattern := "", start := 3, stop := 10, type := "brand",
    display_name := "long", id := none, confidence := 1 }

/-- The loop of the amended claim C1: same iteration order as the source,
  with the greedy test phrased against the end of the last accepted
  match instead of the `last_end` variable. -/
def amendedLoop : List MatchRec → List MatchRec → List MatchRec
  | [], resolved => resolved
  | m :: rest, resolved =>
    match resolved.getLast? with
    | none => amendedLoop rest (resolved ++ [m])
    | some last_match =>
      if last_match.stop ≤ m.start then amendedLoop rest (resolved ++ [m])
      else
        match type_priority m.type, type_priority last_match.type with
        | some pm, some pl =>
          if pm < pl then amendedLoop rest (resolved.dropLast ++ [m])
          else amendedLoop rest resolved
        | _, _ => amendedLoop rest resolved

/-- The amended claim C1's algorithm as one function: sort by `start`
  ascending (ties: span end descending), then greedily accept a match iff
  it starts at or after the end of the last accepted match, except that
  an overlapping match whose type has strictly higher priority than the
  last accepted match's type replaces that last match. -/
def amended_resolve (ms : List MatchRec) : List MatchRec :=
  if ms = [] then [] else amendedLoop (List.insertionSort startEndKey ms) []

/-- Python slicing `t[a:b]` for non-negative bounds (negative values clamp
  to `0` here; the embedded code only slices with non-negative indices). -/
def listSlice (t : List Char) (a b : Int) : List Char := (t.take b.toNat).drop a.toNat

/-- `match["type"].replace("_", "-")`: replacing a single-character pattern
  is a character-wise map. -/
def tag_type_of (t : String) : List Char :=
  t.toList.map fun c => if c = '_' then '-' else c

/-- The sort key of `_generate_tagged_text`:
  `sorted(matches, key=lambda x: x["start"])`. -/
def startKey (a b : MatchRec) : Prop := a.start ≤ b.start

instance : DecidableRel startKey := fun a b => by
  unfold startKey; infer_instance

instance : IsTotal MatchRec startKey :=
  ⟨by intro a b; unfold startKey; omega⟩

instance : IsTrans MatchRec startKey :=
  ⟨by intro a b c; unfold startKey; omega⟩

/-- The f-string of `_generate_tagged_text`:
  `f"<{tag_type}>{match['text']}</{tag_type}>"`. -/
def renderTag (m : MatchRec) : List Char :=
  '<' :: (tag_type_of m.type ++ '>' :: (m.text ++ '<' :: '/' :: (tag_type_of m.type ++ ['>'])))

/-- The loop of `_generate_tagged_text`, walking the sorted matches while
  tracking `last_pos` (initially `0`): copy the gap before each match,
  emit the tag, and finally copy the tail after the last match. -/
def taggedGo (text : List Char) : List MatchRec → Int → List Char
  | [], last_pos =>
    if last_pos < (text.length : Int) then text.drop last_pos.toNat else []
  | m :: rest, last_pos =>
    (if last_pos < m.start then listSlice text last_pos m.start else []) ++
      (renderTag m ++ taggedGo text rest m.stop)

/-- `EntityMatcher._generate_tagged_text`. -/
def generate_tagged_text (text : List Char) (ms : List MatchRec) : List Char :=
  if ms = [] then text
  else taggedGo text (List.insertionSort startKey ms) 0

/-- State machine that removes every `<`…`>` group from a character list:
  the spec's "stripping all `<type>...</type>` tags".  The Boolean state
  records whether the scanner is inside a tag. -/
def stripTagsGo : Bool → List Char → List Char
  | _, [] => []
  | false, c :: rest =>
    if c = '<' then stripTagsGo true rest else c :: stripTagsGo false rest
  | true, c :: rest =>
    if c = '>' then stripTagsGo false rest else stripTagsGo true rest

/-- Removing all tags from a tagged text. -/
def stripTags (t : List Char) : List Char := stripTagsGo false t

/-- Concrete witness for claim C3. -/
def c3Text : List Char := "Show sales now".toList

/-- Counterexample input for claim C3: a text that already contains an
  angle-bracket tag pair before any tagging happens. -/
def c3BadText : List Char := "a<metric>x</metric>b".toList

def c3Match : MatchRec :=
  { text := "sales".toList, pattern := "sales", start := 5, stop := 10,
    type := "metric", display_name := "sales", id := none, confidence := 1 }

/-- Metadata dictionary attached to a pattern by `EntityMatcher._load_patterns`
  (keys `type`, `display_name`, `id`, `confidence`; `id` is only present
  for aliases and is `none` otherwise). -/
structure PatternMeta where
  type : String
  display_name : String
  id : Option String
  confidence : ℚ
deriving DecidableEq, Inhabited

/-- `AhoCorasickNode`: children edges (an insertion-ordered dict from
  characters to node indices), optional failure link, accumulated outputs
  and the end-of-pattern flag.  Nodes live in the matcher's node store,
  index `0` being the root. -/
structure ACNode where
  children : List (Char × Nat)
  failure : Option Nat
  outputs : List (String × PatternMeta)
  is_end : Bool
deriving DecidableEq, Inhabited

/-- `children[char]` lookup. -/
def childOf (n : ACNode) (c : Char) : Option Nat :=
  (n.children.find? fun p => p.1 == c).map (·.2)

/-- In-place update of one node of the store (no-op out of range, which
  never happens for indices produced by the embedding). -/
def modifyIdx (nodes : List ACNode) (i : Nat) (f : ACNode → ACNode) : List ACNode :=
  nodes.set i (f (nodes.getD i default))

/-- `AhoCorasickMatcher.__init__`s state: the node store (root at index
  `0`), the `case_sensitive` flag and the `patterns_added` flag. -/
structure AhoCorasickMatcher where
  nodes : List ACNode
  case_sensitive : Bool
  patterns_added : Bool
deriving DecidableEq, Inhabited

def AhoCorasickMatcher.init (case_sensitive : Bool) : AhoCorasickMatcher :=
  { nodes := [default], case_sensitive := case_sensitive, patterns_added := false }

/-- The trie-walk of `add_pattern`: follow existing edges, creating fresh
  nodes (appended at the end of the store) as needed; returns the updated
  store and the index of the final node. -/
def insertChars : List Char → Nat → List ACNode → List ACNode × Nat
  | [], cur, nodes => (nodes, cur)
  | c :: cs, cur, nodes =>
    match childOf (nodes.getD cur default) c with
    | some j => insertChars cs j nodes
    | none =>
      let j := nodes.length
      let nodes' := modifyIdx (nodes ++ [default]) cur
        fun n => { n with children := n.children ++ [(c, j)] }
      insertChars cs j nodes'

/-- `AhoCorasickMatcher.add_pattern`. -/
def AhoCorasickMatcher.add_pattern (m : AhoCorasickMatcher) (pattern : String)
    (metadata : PatternMeta) : AhoCorasickMatcher :=
  if pattern.isEmpty then m
  else
    let pattern_key := if m.case_sensitive then pattern else strToLower pattern
    let r := insertChars pattern_key.toList 0 m.nodes
    let nodes2 := modifyIdx r.1 r.2
      fun n => { n with is_end := true, outputs := n.outputs ++ [(pattern, metadata)] }
    { m with nodes := nodes2 }

/-- `current.failure or self.root` (the root has index `0`). -/
def failNext (nodes : List ACNode) (cur : Nat) : Nat :=
  match (nodes.getD cur default).failure with
  | some j => j
  | none => 0

/-- The inner `while failure and char not in failure.children` loop of
  `build_failure_links`.  This loop always terminates in real runs
  (failure links point to strictly shallower nodes and end in `None` at
  the root); the fuel is sized so that it never runs out there. -/
def findFailure (nodes : List ACNode) : Nat → Option Nat → Char → Option Nat
  | _, none, _ => none
  | fuel, some f, c =>
    if (childOf (nodes.getD f default) c).isSome then some f
    else
      match fuel with
      | 0 => some f
      | fuel' + 1 => findFailure nodes fuel' (nodes.getD f default).failure c

/-- The body of `build_failure_links`' inner `for char, child` loop:
  compute the child's failure link and propagate that node's outputs. -/
def processChild (nodes : List ACNode) (c : Char) (childIdx : Nat)
    (curFailure : Option Nat) : List ACNode :=
  let f := findFailure nodes nodes.length curFailure c
  let childFailure :=
    match f with
    | some fi =>
      match childOf (nodes.getD fi default) c with
      | some j => j
      | none => 0
    | none => 0
  let nodes' := modifyIdx nodes childIdx fun n => { n with failure := some childFailure }
  if ((nodes'.getD childFailure default).outputs).isEmpty then nodes'
  else modifyIdx nodes' childIdx
    fun n => { n with outputs := n.outputs ++ (nodes'.getD childFailure default).outputs }

/-- The BFS of `build_failure_links`.  Every node is enqueued at most once
  (each is reachable from exactly one parent edge of the trie), so a fuel
  of `nodes.length` pops every queued node in real runs. -/
def bfsLoop : Nat → List Nat → List ACNode → List ACNode
  | _, [], nodes => nodes
  | 0, _ :: _, nodes => nodes
  | fuel + 1, cur :: queue, nodes =>
    let step := ((nodes.getD cur default).children).foldl
      (fun (acc : List ACNode × List Nat) p =>
        (processChild acc.1 p.1 p.2 ((acc.1.getD cur default).failure), acc.2 ++ [p.2]))
      (nodes, queue)
    bfsLoop fuel step.2 step.1

/-- `AhoCorasickMatcher.build_failure_links`: seed the root's children with
  failure link `0`, run the BFS, and set `patterns_added`. -/
def AhoCorasickMatcher.build_failure_links (m : AhoCorasickMatcher) : AhoCorasickMatcher :=
  let rootChildren := ((m.nodes.getD 0 default).children).map (·.2)
  let nodes0 := rootChildren.foldl
    (fun ns j => modifyIdx ns j fun n => { n with failure := some 0 }) m.nodes
  { m with nodes := bfsLoop nodes0.length rootChildren nodes0, patterns_added := true }

/-- `AhoCorasickMatcher._is_word_boundary`.  Out-of-range reads use a
  blank default; the scanner only probes positions inside the text. -/
def is_word_boundary (text : List Char) (start stop : Int) : Bool :=
  if 0 < start && (text.getD (start - 1).toNat ' ').isAlphanum then false
  else if stop < (text.length : Int) && (text.getD stop.toNat ' ').isAlphanum then false
  else true

/-- The scanner's inner loop
  `while current and char not in current.children: current = current.failure or self.root`.
  A node object is always truthy in Python, so the loop exits only when
  the character has an edge; because the root's failure link is `None`,
  `current.failure or self.root` leaves a root without the edge unchanged
  and the Python loop then runs forever.  `none` here means the fuel ran
  out, so `= none` for every fuel is exactly that divergence. -/
def AhoCorasickMatcher.findTransition (m : AhoCorasickMatcher) (c : Char) :
    Nat → Nat → Option Nat
  | fuel, cur =>
    if (childOf (m.nodes.getD cur default) c).isSome then some cur
    else
      match fuel with
      | 0 => none
      | fuel' + 1 => m.findTransition c fuel' (failNext m.nodes cur)

/-- The body of `find_all`'s `for i, char in enumerate(search_text)` loop:
  resolve the transition, follow the edge (falling back to the root),
  report the boundary-filtered outputs, and continue. -/
def AhoCorasickMatcher.findAllLoop (m : AhoCorasickMatcher) (text : List Char)
    (word_boundaries : Bool) (fuel : Nat) :
    List (Nat × Char) → Nat → Option (List MatchRec)
  | [], _ => some []
  | (i, c) :: rest, current =>
    match m.findTransition c fuel current with
    | none => none
    | some n =>
      let current' :=
        match childOf (m.nodes.getD n default) c with
        | some j => j
        | none => 0
      let found := ((m.nodes.getD current' default).outputs).filterMap fun pm =>
        let plen := (if m.case_sensitive then pm.1 else strToLower pm.1).length
        let start_pos : Int := (i : Int) - (plen : Int) + 1
        let end_pos : Int := (i : Int) + 1
        if word_boundaries && !(is_word_boundary text start_pos end_pos) then none
        else some { text := listSlice text start_pos end_pos, pattern := pm.1,
                    start := start_pos, stop := end_pos, type := pm.2.type,
                    display_name := pm.2.display_name, id := pm.2.id,
                    confidence := pm.2.confidence }
      match m.findAllLoop text word_boundaries fuel rest current' with
      | none => none
      | some ms => some (found ++ ms)

/-- `AhoCorasickMatcher.find_all`: build lazily when `patterns_added` is
  still false, lower-case the search text unless case-sensitive, scan. -/
def AhoCorasickMatcher.find_all (m : AhoCorasickMatcher) (text : List Char)
    (word_boundaries : Bool) (fuel : Nat) : Option (List MatchRec) :=
  let m' := if !m.patterns_added then m.build_failure_links else m
  let search_text := if m'.case_sensitive then text else text.map Char.toLower
  m'.findAllLoop text word_boundaries fuel search_text.enum 0

/-- `EntityMatcher.__init__`'s stopword set. -/
def stopwords : List String :=
  ["the", "a", "an", "and", "or", "but", "in", "on", "at", "to", "for",
   "of", "with", "by", "from", "as", "is", "was", "are", "were", "been"]

/-- The gazetteer artifact: typed entity lists plus metric and
  time-period word lists (`special_tokens` is ignored by
  `_load_patterns` and therefore not modelled). -/
structure Gazetteer where
  entities : List (String × List String)
  metrics : List String
  timewords : List String

/-- One alias record `{type, name, alias, id?, confidence?}`; the Python
  key `alias` is the field `aliasText` (`alias` is a Lean keyword). -/
structure AliasEntry where
  type : String
  name : String
  aliasText : String
  id : Option String
  confidence : Option ℚ

/-- `entity_type.rstrip("s")`: drop every trailing `'s'`. -/
def rstripS (s : String) : String :=
  String.mk (s.toList.reverse.dropWhile (fun c => c == 's')).reverse

/-- `EntityMatcher._load_patterns`: gazetteer entities and aliases are
  stopword-filtered; metric and time-period words are added as they are. -/
def load_patterns (gazetteer : Gazetteer) (aliases : List AliasEntry)
    (m : AhoCorasickMatcher) : AhoCorasickMatcher :=
  let m1 := gazetteer.entities.foldl
    (fun acc p =>
      p.2.foldl
        (fun acc2 entity =>
          if strToLower entity ∉ stopwords then
            acc2.add_pattern entity ⟨rstripS p.1, entity, none, 1⟩
          else acc2)
        acc)
    m
  let m2 := aliases.foldl
    (fun acc a =>
      if strToLower a.aliasText ∉ stopwords then
        acc.add_pattern a.aliasText ⟨a.type, a.name, a.id, a.confidence.getD ((9 : ℚ) / 10)⟩
      else acc)
    m1
  let m3 := gazetteer.metrics.foldl
    (fun acc metric => acc.add_pattern metric ⟨"metric", metric, none, 1⟩) m2
  gazetteer.timewords.foldl
    (fun acc timeword => acc.add_pattern timeword ⟨"time_period", timeword, none, 1⟩) m3

/-- `EntityMatcher.__init__`: case-insensitive matcher, load patterns,
  build the failure links. -/
structure EntityMatcher where
  matcher : AhoCorasickMatcher
deriving DecidableEq

def EntityMatcher.build (gazetteer : Gazetteer) (aliases : List AliasEntry) : EntityMatcher :=
  ⟨(load_patterns gazetteer aliases (AhoCorasickMatcher.init false)).build_failure_links⟩

/-- One element of the `entities` list of `recognize_entities`
  (`metadata` holds only `display_name`). -/
structure Entity where
  text : List Char
  type : String
  start : Int
  stop : Int
  confidence : ℚ
  id : Option String
  display_name : String
deriving DecidableEq, Inhabited

/-- The result dictionary of `recognize_entities`. -/
structure RecognizeOutput where
  tagged_text : List Char
  entities : List Entity
deriving DecidableEq

/-- `EntityMatcher.recognize_entities`: scan (with word boundaries),
  resolve overlaps, tag, project the entity records.  `none` propagates a
  diverging scan. -/
def EntityMatcher.recognize_entities (em : EntityMatcher) (text : List Char)
    (fuel : Nat) : Option RecognizeOutput :=
  match em.matcher.find_all text true fuel with
  | none => none
  | some found =>
    let resolved := resolve_overlaps found
    let tagged_text := generate_tagged_text text resolved
    some ⟨tagged_text, resolved.map fun mr =>
      ⟨mr.text, mr.type, mr.start, mr.stop, mr.confidence, mr.id, mr.display_name⟩⟩

/-- Observer: does the trie store `p` (is its lower-cased key a complete
  inserted pattern)? -/
def hasPattern (m : AhoCorasickMatcher) (p : String) : Bool :=
  go (if m.case_sensitive then p else strToLower p).toList 0
where
  go : List Char → Nat → Bool
    | [], cur => (m.nodes.getD cur default).is_end
    | c :: cs, cur =>
      match childOf (m.nodes.getD cur default) c with
      | some j => go cs j
      | none => false

/-- A matcher with one pattern added and `build_failure_links` never
  called: `patterns_added` is still false. -/
def unbuiltMatcher : AhoCorasickMatcher :=
  (AhoCorasickMatcher.init false).add_pattern "ab" ⟨"metric", "ab", none, 1⟩

/-- The matcher of the word-boundary scenario (claim C6 and the test
  `test_word_boundaries`): the single pattern `"Mars"`. -/
def marsMatcher : AhoCorasickMatcher :=
  ((AhoCorasickMatcher.init false).add_pattern "Mars"
    ⟨"manufacturer", "Mars", none, 1⟩).build_failure_links

def marsText : List Char := "Marshmallow is not Mars".toList

/-- Every child edge of every node targets a positive index: the root
  (index `0`) is never the target of an edge, so once its own out-edges
  exist nothing in the construction touches it again. -/
def Targets1 (nodes : List ACNode) : Prop :=
  ∀ n ∈ nodes, ∀ p ∈ n.children, 1 ≤ p.2

/-- The root-safety bundle: no `c`-edge at the root, no root failure
  link, all edges target positive indices, at least one node, and the
  matcher is case-insensitive. -/
def RootSafe (c : Char) (m : AhoCorasickMatcher) : Prop :=
  childOf (m.nodes.getD 0 default) c = none ∧
    (m.nodes.getD 0 default).failure = none ∧
    Targets1 m.nodes ∧ 1 ≤ m.nodes.length ∧ m.case_sensitive = false

/-- The apostrophe character (U+0027), spelt via its code point. -/
def apos : Char := Char.ofNat 39

/-- The default gazetteer of `ArtifactLoader._load_defaults` (the fallback
  vocabulary the recognition service uses when no artifact files exist,
  and the vocabulary of the repository's own truncation test). -/
def defaultGazetteer : Gazetteer :=
  { entities :=
      [("manufacturers", ["Cadbury", "Mars", "Nestle", "Ferrero", "Thorntons"]),
       ("brands", ["Dairy Milk", "Galaxy", "KitKat", "Snickers", "Roses"]),
       ("categories", ["Chocolate", "Confectionery", "Biscuits"]),
       ("products", ["Chocolate Bars", "Boxed Chocolates", "Seasonal"])],
    metrics := ["revenue", "sales", "market share", "growth", "volume",
                "price", "promotion", "elasticity", "margin", "profit"],
    timewords := ["Q1", "Q2", "Q3", "Q4", "quarter", "month", "year",
                  "YTD", "MTD", "QTD", "last", "previous", "current"] }

/-- The default aliases of `ArtifactLoader._load_defaults` (the second
  alias is `cadbury's`, written here through `apos`). -/
def defaultAliases : List AliasEntry :=
  [⟨"manufacturer", "Cadbury", "cadburys", none, some ((9 : ℚ) / 10)⟩,
   ⟨"manufacturer", "Cadbury",
      String.mk (['c', 'a', 'd', 'b', 'u', 'r', 'y'] ++ [apos, 's']),
      none, some ((9 : ℚ) / 10)⟩,
   ⟨"brand", "Dairy Milk", "dairy milk chocolate", none, some ((9 : ℚ) / 10)⟩,
   ⟨"metric", "market share", "share", none, some ((9 : ℚ) / 10)⟩,
   ⟨"metric", "revenue", "sales", none, some ((9 : ℚ) / 10)⟩]

/-- The `EntityMatcher` the recognition service builds over the default
  artifacts. -/
def defaultEntityMatcher : EntityMatcher :=
  EntityMatcher.build defaultGazetteer defaultAliases

/-- The result dictionary of `EntityRecognitionService.recognize` (the
  exact-match path, fuzzy matching disabled as by default): `error` is
  `none` when the key is absent.  The wall-clock stamp is an oracle
  parameter of the embedding. -/
structure RecognitionResult where
  tagged_text : List Char
  entities : List Entity
  processing_time_ms : ℚ
  error : Option String
deriving DecidableEq

/-- `EntityRecognitionService.recognize`, with the matcher pipeline
  (`self.matcher.recognize_entities`, which may raise) passed as an
  `Except`-valued function and the elapsed-time measurement as an
  oracle: clamp the input to 500 characters, run the pipeline inside
  `try`, and convert any exception into an error result. -/
def recognize (pipeline : List Char → Except String RecognizeOutput)
    (elapsed_ms : ℚ) (text : List Char) : RecognitionResult :=
  let text := if 500 < text.length then text.take 500 else text
  match pipeline text with
  | .ok r =>
    { tagged_text := r.tagged_text, entities := r.entities,
      processing_time_ms := elapsed_ms, error := none }
  | .error e =>
    { tagged_text := text, entities := [],
      processing_time_ms := elapsed_ms, error := some e }

/-- The `type`/`full_name` entry of `_entity_metadata` built by
  `FuzzyMatcher._build_search_index` (the nested raw `metadata` payload is
  pass-through data never inspected by the matching logic and is not
  modelled). -/
structure EntityMeta where
  type : String
  full_name : String
deriving DecidableEq, Inhabited

/-- One fuzzy-match dictionary produced by `find_fuzzy_matches`. -/
structure FuzzyResult where
  text : String
  confidence : ℚ
  type : String
  full_name : String
  match_type : String
  original_query : String
  levenshtein_distance : Nat
deriving DecidableEq, Inhabited

/-- One suggestion dictionary produced by `enhance_with_fuzzy_matching`. -/
structure Suggestion where
  text : String
  confidence : ℚ
  type : String
  suggestion_type : String
  original_query : String
deriving DecidableEq, Inhabited

/-- The result dictionary of `enhance_with_fuzzy_matching`.  Python mixes
  exact-match dictionaries and fuzzy-match dictionaries in one list;
  `enhanced_entities` is therefore a list of a sum type. -/
structure EnhanceResult where
  fuzzy_matches : List FuzzyResult
  suggestions : List Suggestion
  enhanced_entities : List (Entity ⊕ FuzzyResult)

/-- `FuzzyMatcher` state after `_build_search_index`: the `enabled` flag
  (RapidFuzz availability), the threshold, the deduplicated surface-form
  list with its metadata, the `_match_cache` contents at the time of the
  call (keyed like the Python key `f"{text}:{max_matches}"`, which
  determines the pair `(text, max_matches)` uniquely since the decimal
  rendering of `max_matches` contains no colon), and two oracles for the
  external RapidFuzz calls — `extract` models `process.extract(text,
  choices, scorer, limit, score_cutoff)` returning `(choice, score)`
  pairs on the 0–100 scale (the third tuple component, an index, is
  unused by the code), and `lev` models `Levenshtein.distance`.  The
  cache write-back mutates state for *later* calls and is represented by
  quantifying over the `match_cache` contents a call starts from. -/
structure FuzzyMatcher where
  enabled : Bool
  confidence_threshold : ℚ
  all_entities : List String
  entity_metadata : List (String × EntityMeta)
  match_cache : List ((String × Nat) × List FuzzyResult)
  extract : String → List String → Nat → ℚ → List (String × ℚ)
  lev : String → String → Nat

/-- The sort key of the fuzzy result lists:
  `sort(key=lambda x: x["confidence"], reverse=True)` (stable descending
  order by confidence). -/
def confDesc (a b : FuzzyResult) : Prop := b.confidence ≤ a.confidence

instance : DecidableRel confDesc := fun a b => by
  unfold confDesc; infer_instance

instance : IsTotal FuzzyResult confDesc :=
  ⟨by intro a b; unfold confDesc; exact le_total b.confidence a.confidence⟩

instance : IsTrans FuzzyResult confDesc :=
  ⟨by intro a b c; unfold confDesc; intro h1 h2; exact le_trans h2 h1⟩

/-- `FuzzyMatcher.find_fuzzy_matches` (the guard `not text or not process
  or not fuzz` is subsumed by `len(text) < 2` and `enabled`): after the
  guard, a `_match_cache` hit returns the cached result list as stored,
  bypassing the threshold filter; otherwise the backend's candidates are
  filtered by `confidence >= self.confidence_threshold`, sorted by
  confidence descending and truncated to `max_matches`. -/
def FuzzyMatcher.find_fuzzy_matches (fm : FuzzyMatcher) (text : String)
    (max_matches : Nat) : List FuzzyResult :=
  if !fm.enabled || text.length < 2 then []
  else
    match (fm.match_cache.find? fun kv => kv.1 == (text, max_matches)).map (·.2) with
    | some cached => cached
    | none =>
      let raw := fm.extract text fm.all_entities (max_matches * 2)
        (fm.confidence_threshold * 100)
      let results := raw.filterMap fun mt =>
        let confidence := mt.2 / 100
        if fm.confidence_threshold ≤ confidence then
          let metadata := (fm.entity_metadata.find? fun q => q.1 == mt.1).map (·.2)
          some { text := mt.1, confidence := confidence,
                 type := (metadata.map (·.type)).getD "unknown",
                 full_name := (metadata.map (·.full_name)).getD mt.1,
                 match_type := "fuzzy", original_query := text,
                 levenshtein_distance := fm.lev (strToLower text) (strToLower mt.1) }
        else none
      (List.insertionSort confDesc results).take max_matches

/-- The `seen_texts` deduplication loop of
  `find_fuzzy_matches_in_segments`. -/
def dedupFuzzy : List FuzzyResult → List String → List FuzzyResult
  | [], _ => []
  | m :: rest, seen =>
    if m.text ∈ seen then dedupFuzzy rest seen
    else m :: dedupFuzzy rest (m.text :: seen)

/-- `FuzzyMatcher.find_fuzzy_matches_in_segments`. -/
def FuzzyMatcher.find_fuzzy_matches_in_segments (fm : FuzzyMatcher)
    (segments : List String) : List FuzzyResult :=
  let all_matches := segments.foldl
    (fun acc segment =>
      let segment := strTrim segment
      if 2 ≤ segment.length then acc ++ fm.find_fuzzy_matches segment 3 else acc)
    []
  dedupFuzzy (List.insertionSort confDesc all_matches) []

/-- Python's `\\w` (ASCII): alphanumeric or underscore. -/
def isWordChar (c : Char) : Bool := c.isAlphanum || c == '_'

/-- Splitting on `re.split(r"\\W+", ...)` and keeping the word runs: the
  accumulator collects the current run in reverse. -/
def splitRunsGo : List Char → List Char → List String
  | [], acc => if acc.isEmpty then [] else [String.mk acc.reverse]
  | c :: rest, acc =>
    if isWordChar c then splitRunsGo rest (c :: acc)
    else if acc.isEmpty then splitRunsGo rest []
    else String.mk acc.reverse :: splitRunsGo rest []

def splitRuns (t : List Char) : List String := splitRunsGo t []

/-- `[word.strip() for word in re.split(r"\\W+", segment) if
  len(word.strip()) > 1]` (a `\\w`-run contains no whitespace, so the
  inner `strip` is the identity). -/
def wordTokens (t : List Char) : List String :=
  (splitRuns t).filter fun w => decide (1 < w.length)

def trimChars (t : List Char) : List Char :=
  ((t.dropWhile Char.isWhitespace).reverse.dropWhile Char.isWhitespace).reverse

/-- The sort key of `_find_unmatched_segments`:
  `sorted(exact_matches, key=lambda x: x.get("start", 0))`. -/
def startKeyE (a b : Entity) : Prop := a.start ≤ b.start

instance : DecidableRel startKeyE := fun a b => by
  unfold startKeyE; infer_instance

instance : IsTotal Entity startKeyE :=
  ⟨by intro a b; unfold startKeyE; omega⟩

instance : IsTrans Entity startKeyE :=
  ⟨by intro a b c; unfold startKeyE; omega⟩

/-- `FuzzyMatcher._find_unmatched_segments` (`self` is unused in the
  Python method). -/
def find_unmatched_segments (text : List Char) (exact_matches : List Entity) :
    List String :=
  if exact_matches.isEmpty then wordTokens text
  else
    let sorted_matches := List.insertionSort startKeyE exact_matches
    let r := sorted_matches.foldl
      (fun (acc : List String × Int) m =>
        let segs :=
          if acc.2 < m.start then
            let segment := trimChars (listSlice text acc.2 m.start)
            if segment ≠ [] then acc.1 ++ wordTokens segment else acc.1
          else acc.1
        (segs, m.stop))
      ([], 0)
    if r.2 < (text.length : Int) then
      let segment := trimChars (text.drop r.2.toNat)
      if segment ≠ [] then r.1 ++ wordTokens segment else r.1
    else r.1

/-- `FuzzyMatcher.enhance_with_fuzzy_matching`. -/
def FuzzyMatcher.enhance_with_fuzzy_matching (fm : FuzzyMatcher)
    (text : List Char) (exact_matches : List Entity) : EnhanceResult :=
  if !fm.enabled then
    { fuzzy_matches := [], suggestions := [],
      enhanced_entities := exact_matches.map Sum.inl }
  else
    let unmatched_segments := find_unmatched_segments text exact_matches
    let fuzzy_matches := fm.find_fuzzy_matches_in_segments unmatched_segments
    let split := fuzzy_matches.foldl
      (fun (acc : List Suggestion × List FuzzyResult) m =>
        if fm.confidence_threshold ≤ m.confidence then (acc.1, acc.2 ++ [m])
        else (acc.1 ++ [⟨m.text, m.confidence, m.type, "fuzzy_match",
          m.original_query⟩], acc.2))
      ([], [])
    { fuzzy_matches := fuzzy_matches,
      suggestions := split.1.take 5,
      enhanced_entities := exact_matches.map Sum.inl ++ split.2.map Sum.inr }

/-- A `FuzzyMatcher` whose similarity backend is disabled (RapidFuzz
  unavailable), as in the repository's own test fixtures. -/
def disabledFM : FuzzyMatcher :=
  { enabled := false, confidence_threshold := 4/5, all_entities := [],
    entity_metadata := [], match_cache := [],
    extract := fun _ _ _ _ => [], lev := fun _ _ => 0 }

/-- A concrete exact-match entity used to instantiate the frame theorem. -/
def witnessEntity : Entity :=
  { text := "Coca-Cola".toList, type := "manufacturer", start := 8, stop := 17,
    confidence := 1, id := none, display_name := "Coca-Cola" }

/-- An enabled matcher whose backend reports `"cadbury"` at score 70 —
  below the default threshold of 0.8. -/
def lowScoreFM : FuzzyMatcher :=
  { enabled := true, confidence_threshold := 4/5, all_entities := ["cadbury"],
    entity_metadata := [("cadbury", ⟨"manufacturer", "Cadbury"⟩)],
    match_cache := [],
    extract := fun _ _ _ _ => [("cadbury", 70)], lev := fun _ _ => 1 }

/-- An enabled matcher whose backend reports `"cadbury"` at score 90 —
  above the default threshold of 0.8. -/
def highScoreFM : FuzzyMatcher :=
  { enabled := true, confidence_threshold := 4/5, all_entities := ["cadbury"],
    entity_metadata := [("cadbury", ⟨"manufacturer", "Cadbury"⟩)],
    match_cache := [],
    extract := fun _ _ _ _ => [("cadbury", 90)], lev := fun _ _ => 1 }

/-- An alias record whose alias surface lower-cases to the stopword
  `"and"`. -/
def stopAlias : AliasEntry :=
  { type := "manufacturer", name := "And Co", aliasText := "And",
    id := none, confidence := none }

theorem pairwise_dropLast_getLast {P : MatchRec → MatchRec → Prop} :
    ∀ {l : List MatchRec}, l.Pairwise P → ∀ {x}, l.getLast? = some x →
      ∀ r ∈ l.dropLast, P r x := by
  intro l
  induction l with
  | nil => intro _ x hx; simp at hx
  | cons a t ih =>
    intro hp x hx r hr
    cases t with
    | nil => simp at hr
    | cons b t2 =>
      have hlast : (b :: t2).getLast? = some x := by
        rwa [List.getLast?_cons_cons] at hx
      rw [List.dropLast_cons_of_ne_nil (by simp)] at hr
      rcases List.mem_cons.mp hr with h | h
      · subst h
        exact (List.pairwise_cons.mp hp).1 x
          (List.mem_of_mem_getLast? (by simp [hlast]))
      · exact ih (List.pairwise_cons.mp hp).2 hlast r h

theorem resolveLoop_pairwise :
    ∀ (pending resolved : List MatchRec) (last_end : Int),
      resolved.Pairwise ResolvedP →
      pending.Pairwise (fun a b => a.start ≤ b.start) →
      (∀ m ∈ pending, ∀ r ∈ resolved, r.start ≤ m.start) →
      (∀ l ∈ resolved.getLast?, last_end = l.stop) →
      (resolveLoop pending resolved last_end).Pairwise ResolvedP := by
  intro pending
  induction pending with
  | nil => intro resolved last_end h1 _ _ _; simpa [resolveLoop] using h1
  | cons m rest ih =>
    intro resolved last_end h1 h2 h3 h4
    have h2' : rest.Pairwise (fun a b => a.start ≤ b.start) :=
      (List.pairwise_cons.mp h2).2
    have hmrest : ∀ m'' ∈ rest, m.start ≤ m''.start :=
      (List.pairwise_cons.mp h2).1
    have h3' : ∀ m'' ∈ rest, ∀ r ∈ resolved, r.start ≤ m''.start :=
      fun m'' hm'' r hr => h3 m'' (by simp [hm'']) r hr
    rw [resolveLoop]
    split
    case isTrue hc =>
      -- append case
      have hPm : ∀ r ∈ resolved, ResolvedP r m := by
        intro r hr
        rcases hlast : resolved.getLast? with _ | ⟨l⟩
        · rw [List.getLast?_eq_none_iff] at hlast
          subst hlast; simp at hr
        · have hle : last_end = l.stop := h4 l (by simp [hlast])
          have hsplit : resolved.dropLast ++ [l] = resolved :=
            List.dropLast_append_getLast? l (by simp [hlast])
          rw [← hsplit] at hr
          rcases List.mem_append.mp hr with h | h
          · have hPl : ResolvedP r l := pairwise_dropLast_getLast h1 hlast r h
            have hls : l.start ≤ m.start := h3 m (by simp)
              l (List.mem_of_mem_getLast? (by simp [hlast]))
            exact ⟨le_trans hPl.1 hls, le_trans hPl.2 hls⟩
          · have : r = l := by simpa using h
            subst this
            refine ⟨by omega, h3 m (by simp) r
              (List.mem_of_mem_getLast? (by simp [hlast]))⟩
      apply ih (resolved ++ [m]) m.stop
      · rw [List.pairwise_append]
        refine ⟨h1, by simp, ?_⟩
        intro a ha b hb
        rw [List.mem_singleton] at hb; subst hb
        exact hPm a ha
      · exact h2'
      · intro m'' hm'' r hr
        rcases List.mem_append.mp hr with h | h
        · exact h3' m'' hm'' r h
        · have : r = m := by simpa using h
          subst this
          exact hmrest m'' hm''
      · intro l hl
        rw [List.getLast?_concat] at hl
        simp at hl; subst hl; rfl
    case isFalse hc =>
      split
      case h_1 pm l hpm hlast =>
        split
        case h_1 pl hpl =>
          split
          case isTrue hlt =>
            -- replace case
            have hPm : ∀ r ∈ resolved.dropLast, ResolvedP r m := by
              intro r hr
              have hPl : ResolvedP r l := pairwise_dropLast_getLast h1 hlast r hr
              have hls : l.start ≤ m.start := h3 m (by simp)
                l (List.mem_of_mem_getLast? (by simp [hlast]))
              exact ⟨le_trans hPl.1 hls, le_trans hPl.2 hls⟩
            apply ih (resolved.dropLast ++ [m]) m.stop
            · rw [List.pairwise_append]
              refine ⟨h1.sublist (List.dropLast_sublist resolved), by simp, ?_⟩
              intro a ha b hb
              rw [List.mem_singleton] at hb; subst hb
              exact hPm a ha
            · exact h2'
            · intro m'' hm'' r hr
              rcases List.mem_append.mp hr with h | h
              · exact h3' m'' hm'' r ((List.dropLast_sublist resolved).mem h)
              · have : r = m := by simpa using h
                subst this
                exact hmrest m'' hm''
            · intro l2 hl2
              rw [List.getLast?_concat] at hl2
              simp at hl2; subst hl2; rfl
          case isFalse hlt =>
            exact ih resolved last_end h1 h2' h3' h4
        case h_2 hpl =>
          exact ih resolved last_end h1 h2' h3' h4
      case h_2 =>
        exact ih resolved last_end h1 h2' h3' h4

/-- Claim C2: for every possibly-overlapping match sequence fed to the
  Overlap Resolver, the resolved list is sorted by `start` ascending and
  no two of its spans `[start, stop)` intersect.  (The entity records
  produced by `recognize_entities` copy these spans verbatim.) -/
theorem resolve_overlaps_nonoverlapping_sorted (ms : List MatchRec) :
    ((resolve_overlaps ms).Pairwise fun a b => a.start ≤ b.start) ∧
      (resolve_overlaps ms).Pairwise spansDisjoint := by
  have key : (resolve_overlaps ms).Pairwise ResolvedP := by
    unfold resolve_overlaps
    by_cases h : ms = []
    · simp [h]
    · rw [if_neg h]
      apply resolveLoop_pairwise
      · exact List.Pairwise.nil
      · exact (List.sorted_insertionSort startEndKey ms).imp
          (fun hab => by unfold startEndKey at hab; omega)
      · intro m _ r hr; simp at hr
      · intro l hl; simp at hl
  constructor
  · exact key.imp fun hab => hab.2
  · exact key.imp fun hab => by
      intro k hk
      unfold ResolvedP at hab
      omega

/-- Counterexample to claim C1: on the raw matches `[0,5)` and `[3,10)`
  (both of type `brand`), the source resolver keeps the EARLIER match
  `[0,5)`, while the claimed algorithm (longest span first) keeps the
  LONGER match `[3,10)`; the two disagree. -/
theorem resolve_overlaps_differs_from_spec :
    resolve_overlaps [mShort, mLong] = [mShort] ∧
      spec_resolve_overlaps [mShort, mLong] = [mLong] ∧
      resolve_overlaps [mShort, mLong] ≠ spec_resolve_overlaps [mShort, mLong] := by
  refine ⟨by decide, by decide, by decide⟩

theorem resolveLoop_eq_amendedLoop :
    ∀ (pending resolved : List MatchRec) (last_end : Int),
      (∀ l ∈ resolved.getLast?, last_end = l.stop) →
      (resolved = [] → last_end = -1) →
      (∀ m ∈ pending, 0 ≤ m.start) →
      resolveLoop pending resolved last_end = amendedLoop pending resolved := by
  intro pending
  induction pending with
  | nil => intro resolved last_end _ _ _; rfl
  | cons m rest ih =>
    intro resolved last_end h4 h5 h0
    have h0' : ∀ m'' ∈ rest, 0 ≤ m''.start := fun m'' hm'' => h0 m'' (by simp [hm''])
    have h0m : 0 ≤ m.start := h0 m (by simp)
    have happ : ∀ r : List MatchRec, ∀ l ∈ (r ++ [m]).getLast?, m.stop = l.stop := by
      intro r l hl
      rw [List.getLast?_concat] at hl
      simp at hl
      subst hl
      rfl
    rcases hlast : resolved.getLast? with _ | ⟨l⟩
    · rw [List.getLast?_eq_none_iff] at hlast
      subst hlast
      rw [resolveLoop, amendedLoop]
      rw [if_pos (by rw [h5 rfl]; omega)]
      exact ih ([] ++ [m]) m.stop (happ []) (by simp) h0'
    · have hle : last_end = l.stop := h4 l (by simp [hlast])
      subst hle
      have hne : resolved ≠ [] := by
        intro h
        subst h
        simp at hlast
      have hsk : ∀ x ∈ resolved.getLast?, l.stop = x.stop := by
        intro x hx
        rw [hlast] at hx
        simp at hx
        subst hx
        rfl
      by_cases hc : l.stop ≤ m.start
      · rw [resolveLoop, amendedLoop]
        simp only [hlast]
        rw [if_pos hc, if_pos hc]
        exact ih (resolved ++ [m]) m.stop (happ resolved) (by simp) h0'
      · rcases hpm : type_priority m.type with _ | ⟨pm⟩
        · rw [resolveLoop, amendedLoop]
          simp only [hlast, hpm, if_neg hc]
          exact ih resolved l.stop hsk (fun h => absurd h hne) h0'
        · rcases hpl : type_priority l.type with _ | ⟨pl⟩
          · rw [resolveLoop, amendedLoop]
            simp only [hlast, hpm, hpl, if_neg hc]
            exact ih resolved l.stop hsk (fun h => absurd h hne) h0'
          · by_cases hlt : pm < pl
            · rw [resolveLoop, amendedLoop]
              simp only [hlast, hpm, hpl, if_neg hc, if_pos hlt]
              exact ih (resolved.dropLast ++ [m]) m.stop (happ resolved.dropLast)
                (by simp) h0'
            · rw [resolveLoop, amendedLoop]
              simp only [hlast, hpm, hpl, if_neg hc, if_neg hlt]
              exact ih resolved l.stop hsk (fun h => absurd h hne) h0'

/-- Amended claim C1 (the code's actual policy): for raw matches with
  non-negative starts, the Overlap Resolver is the greedy pass that sorts
  by `start` ascending (ties: span end descending) and accepts a match
  iff it starts at or after the end of the last accepted match, with an
  overlapping match replacing the last accepted one exactly when both
  types carry priorities and the new type's priority is strictly higher;
  span length is never compared across different starts. -/
theorem resolve_overlaps_eq_amended (ms : List MatchRec)
    (h : ∀ m ∈ ms, 0 ≤ m.start) :
    resolve_overlaps ms = amended_resolve ms := by
  unfold resolve_overlaps amended_resolve
  by_cases hms : ms = []
  · simp [hms]
  · rw [if_neg hms, if_neg hms]
    apply resolveLoop_eq_amendedLoop
    · intro l hl; simp at hl
    · intro _; rfl
    · intro m hm
      exact h m ((List.perm_insertionSort startEndKey ms).mem_iff.mp hm)

/-- Witness for the amended claim C1 at a concrete input. -/
theorem resolve_overlaps_eq_amended_witness :
    resolve_overlaps [mShort, mLong] = amended_resolve [mShort, mLong] :=
  resolve_overlaps_eq_amended [mShort, mLong] (by decide)

theorem stripTagsGo_clean (xs : List Char) (hx : ∀ c ∈ xs, c ≠ '<') :
    ∀ ys, stripTagsGo false (xs ++ ys) = xs ++ stripTagsGo false ys := by
  induction xs with
  | nil => intro ys; rfl
  | cons c rest ih =>
    intro ys
    have hc : c ≠ '<' := hx c (by simp)
    rw [List.cons_append, stripTagsGo, if_neg hc]
    rw [ih (fun d hd => hx d (by simp [hd])) ys]
    rfl

theorem stripTagsGo_inside (zs : List Char) (hz : ∀ c ∈ zs, c ≠ '>') :
    ∀ ys, stripTagsGo true (zs ++ '>' :: ys) = stripTagsGo false ys := by
  induction zs with
  | nil => intro ys; rw [List.nil_append, stripTagsGo, if_pos rfl]
  | cons c rest ih =>
    intro ys
    have hc : c ≠ '>' := hz c (by simp)
    rw [List.cons_append, stripTagsGo, if_neg hc]
    exact ih (fun d hd => hz d (by simp [hd])) ys

theorem stripTagsGo_tag (zs ys : List Char) (hz : ∀ c ∈ zs, c ≠ '>') :
    stripTagsGo false ('<' :: (zs ++ '>' :: ys)) = stripTagsGo false ys := by
  rw [stripTagsGo, if_pos rfl]
  exact stripTagsGo_inside zs hz ys

theorem stripTags_of_clean (t : List Char) (ht : ∀ c ∈ t, c ≠ '<') :
    stripTags t = t := by
  have h := stripTagsGo_clean t ht []
  rw [show stripTagsGo false ([] : List Char) = [] from rfl] at h
  simp only [List.append_nil] at h
  exact h

theorem drop_eq_slice_append (t : List Char) (a b : Int)
    (h0 : 0 ≤ a) (hab : a ≤ b) :
    t.drop a.toNat = listSlice t a b ++ t.drop b.toNat := by
  unfold listSlice
  have hab2 : a.toNat + (b.toNat - a.toNat) = b.toNat := by omega
  have h1 : (t.take b.toNat).drop a.toNat = (t.drop a.toNat).take (b.toNat - a.toNat) := by
    rw [List.take_drop, hab2]
  rw [h1]
  conv_lhs => rw [← List.take_append_drop (b.toNat - a.toNat) (t.drop a.toNat)]
  rw [List.drop_drop, hab2]

theorem tag_type_no_gt (ty : String) (h : ∀ c ∈ ty.toList, c ≠ '>') :
    ∀ c ∈ tag_type_of ty, c ≠ '>' := by
  intro c hc
  unfold tag_type_of at hc
  rw [List.mem_map] at hc
  obtain ⟨d, hd, hdc⟩ := hc
  by_cases hd' : d = '_'
  · rw [← hdc, if_pos hd']
    decide
  · rw [← hdc, if_neg hd']
    exact h d hd

theorem taggedGo_roundtrip (text : List Char)
    (hclean : ∀ c ∈ text, c ≠ '<' ∧ c ≠ '>') :
    ∀ (ms : List MatchRec) (last_pos : Int),
      0 ≤ last_pos →
      (∀ m ∈ ms, last_pos ≤ m.start) →
      ms.Pairwise (fun a b => a.stop ≤ b.start) →
      (∀ m ∈ ms, m.start ≤ m.stop ∧ m.stop ≤ (text.length : Int)) →
      (∀ m ∈ ms, m.text = listSlice text m.start m.stop) →
      (∀ m ∈ ms, ∀ c ∈ m.type.toList, c ≠ '>') →
      stripTags (taggedGo text ms last_pos) = text.drop last_pos.toNat := by
  intro ms
  induction ms with
  | nil =>
    intro last_pos h0 _ _ _ _ _
    rw [taggedGo]
    by_cases h : last_pos < (text.length : Int)
    · rw [if_pos h]
      exact stripTags_of_clean _ fun c hc => (hclean c (List.mem_of_mem_drop hc)).1
    · rw [if_neg h]
      have : text.drop last_pos.toNat = [] := by
        apply List.drop_eq_nil_of_le
        omega
      rw [this]
      rfl
  | cons m rest ih =>
    intro last_pos h0 hstart hchain hb htext htype
    have hm : last_pos ≤ m.start := hstart m (by simp)
    have hbm : m.start ≤ m.stop ∧ m.stop ≤ (text.length : Int) := hb m (by simp)
    have hrest :
        stripTags (taggedGo text rest m.stop) = text.drop m.stop.toNat := by
      apply ih m.stop (by omega)
      · exact fun r hr => (List.pairwise_cons.mp hchain).1 r hr
      · exact (List.pairwise_cons.mp hchain).2
      · exact fun r hr => hb r (by simp [hr])
      · exact fun r hr => htext r (by simp [hr])
      · exact fun r hr => htype r (by simp [hr])
    have htextm : m.text = listSlice text m.start m.stop := htext m (by simp)
    have htextclean : ∀ c ∈ m.text, c ≠ '<' := by
      intro c hc
      rw [htextm] at hc
      unfold listSlice at hc
      exact (hclean c (List.mem_of_mem_take (List.mem_of_mem_drop hc))).1
    have htagty : ∀ c ∈ tag_type_of m.type, c ≠ '>' :=
      tag_type_no_gt m.type (htype m (by simp))
    have hstriptag :
        stripTagsGo false (renderTag m ++ taggedGo text rest m.stop)
          = m.text ++ text.drop m.stop.toNat := by
      unfold renderTag
      rw [List.cons_append, List.append_assoc]
      rw [show ('>' :: (m.text ++ '<' :: '/' :: (tag_type_of m.type ++ ['>'])))
            ++ taggedGo text rest m.stop
          = '>' :: (m.text ++ '<' :: ('/' :: (tag_type_of m.type ++ ['>']))
            ++ taggedGo text rest m.stop) by simp]
      rw [stripTagsGo_tag _ _ htagty]
      rw [show (m.text ++ '<' :: ('/' :: (tag_type_of m.type ++ ['>']))
            ++ taggedGo text rest m.stop)
          = m.text ++ ('<' :: (('/' :: tag_type_of m.type)
            ++ '>' :: taggedGo text rest m.stop)) by simp]
      rw [stripTagsGo_clean m.text htextclean]
      have hslash : ∀ c ∈ ('/' :: tag_type_of m.type), c ≠ '>' := by
        intro c hc
        rcases List.mem_cons.mp hc with h | h
        · subst h
          decide
        · exact htagty c h
      rw [stripTagsGo_tag _ _ hslash]
      rw [show stripTagsGo false (taggedGo text rest m.stop)
            = stripTags (taggedGo text rest m.stop) from rfl, hrest]
    rw [taggedGo]
    by_cases hgap : last_pos < m.start
    · rw [if_pos hgap]
      have hgapclean : ∀ c ∈ listSlice text last_pos m.start, c ≠ '<' := by
        intro c hc
        unfold listSlice at hc
        exact (hclean c (List.mem_of_mem_take (List.mem_of_mem_drop hc))).1
      rw [stripTags, stripTagsGo_clean _ hgapclean, hstriptag]
      rw [drop_eq_slice_append text last_pos m.start h0 (by omega)]
      rw [drop_eq_slice_append text m.start m.stop (by omega) hbm.1]
      rw [htextm]
    · rw [if_neg hgap]
      have heq : last_pos = m.start := by omega
      rw [List.nil_append, stripTags, hstriptag]
      rw [heq, drop_eq_slice_append text m.start m.stop (by omega) hbm.1]
      rw [htextm]

/-- Claim C3 (amended): for every input text containing no angle brackets
  (the tagger escapes nothing, so a pre-existing bracket breaks the
  round-trip — see the counterexample) and
  every non-overlapping, start-sorted resolved match set whose recorded
  texts are the corresponding slices of the input, removing all
  `<type>...</type>` tag groups from the tagged text produced by
  `_generate_tagged_text` yields exactly the original input; underscores
  in type names are hyphenated inside the tags only, never altering the
  enclosed substring.  The tagger is a pure function of `(text, ms)`, so
  the output is deterministic given the same resolved set. -/
theorem generate_tagged_text_roundtrip (text : List Char) (ms : List MatchRec)
    (hsorted : ms.Pairwise startKey)
    (hdisj : ms.Pairwise spansDisjoint)
    (hb : ∀ m ∈ ms, 0 ≤ m.start ∧ m.start < m.stop ∧ m.stop ≤ (text.length : Int))
    (htext : ∀ m ∈ ms, m.text = listSlice text m.start m.stop)
    (hclean : ∀ c ∈ text, c ≠ '<' ∧ c ≠ '>')
    (htype : ∀ m ∈ ms, ∀ c ∈ m.type.toList, c ≠ '>') :
    stripTags (generate_tagged_text text ms) = text := by
  unfold generate_tagged_text
  by_cases hms : ms = []
  · rw [if_pos hms]
    exact stripTags_of_clean text fun c hc => (hclean c hc).1
  · rw [if_neg hms]
    rw [List.Sorted.insertionSort_eq hsorted]
    have hchain : ms.Pairwise (fun a b => a.stop ≤ b.start) := by
      have hcomb := List.Pairwise.and hsorted hdisj
      apply hcomb.imp_of_mem
      intro a b ha hb'
      intro hab
      by_contra hcon
      push_neg at hcon
      have hba := hb a ha
      have hbb := hb b hb'
      have h1 : a.start ≤ b.start := hab.1
      exact hab.2 b.start ⟨by omega, by omega, by omega, by omega⟩
    have := taggedGo_roundtrip text hclean ms 0 (by omega)
      (fun m hm => (hb m hm).1) hchain
      (fun m hm => ⟨by have := hb m hm; omega, (hb m hm).2.2⟩) htext htype
    simpa using this

theorem generate_tagged_text_roundtrip_witness :
    stripTags (generate_tagged_text c3Text [c3Match]) = c3Text :=
  generate_tagged_text_roundtrip c3Text [c3Match]
    (by simp) (by simp) (by decide) (by decide) (by decide) (by decide)

/-- Counterexample to claim C3: the empty resolved set is non-overlapping
  and start-sorted, yet on an input that itself contains angle brackets
  the tagger (which escapes nothing) emits the input verbatim, and
  stripping all `<...>` groups yields `"axb"`, not the original text —
  the round-trip fails, so the claim is false for every input text. -/
theorem generate_tagged_text_roundtrip_fails :
    generate_tagged_text c3BadText [] = c3BadText ∧
    stripTags (generate_tagged_text c3BadText []) = "axb".toList ∧
    stripTags (generate_tagged_text c3BadText []) ≠ c3BadText := by
  refine ⟨rfl, by decide, by decide⟩

theorem build_patterns_added (m : AhoCorasickMatcher) :
    (m.build_failure_links).patterns_added = true := rfl

theorem build_case_sensitive (m : AhoCorasickMatcher) :
    (m.build_failure_links).case_sensitive = m.case_sensitive := rfl

/-- Amended claim C4: calling `find_all` before the automaton has been
  built does not fail — there is no `NotBuiltError` anywhere in the code;
  instead `find_all` silently runs `build_failure_links` first and then
  scans exactly as it would after an explicit build. -/
theorem find_all_before_build (m : AhoCorasickMatcher) (text : List Char)
    (wb : Bool) (fuel : Nat) (h : m.patterns_added = false) :
    m.find_all text wb fuel = (m.build_failure_links).find_all text wb fuel := by
  unfold AhoCorasickMatcher.find_all
  rw [h, build_patterns_added]
  simp

/-- Counterexample to claim C4: scanning with the never-built matcher
  does not fail with any error — it returns the normal, correct match
  list (the lazy build has happened under the hood). -/
theorem find_all_before_build_succeeds :
    unbuiltMatcher.patterns_added = false ∧
      unbuiltMatcher.find_all "ab".toList true 5 =
        some [{ text := "ab".toList, pattern := "ab", start := 0, stop := 2,
                type := "metric", display_name := "ab", id := none,
                confidence := 1 }] := by
  refine ⟨rfl, by decide⟩

/-- Witness for the amended claim C4. -/
theorem find_all_before_build_witness :
    unbuiltMatcher.find_all "ab".toList true 5 =
      (unbuiltMatcher.build_failure_links).find_all "ab".toList true 5 :=
  find_all_before_build unbuiltMatcher "ab".toList true 5 rfl

/-- A scan character with no edge anywhere from the root never escapes the
  failure-walk: from the root, `current.failure or self.root` is the root
  itself (the root's failure link is `None`), so the Python `while` loop
  repeats for ever.  In the fuel model the walk returns `none` whatever
  the fuel. -/
theorem findTransition_root_stuck (m : AhoCorasickMatcher) (c : Char)
    (h1 : childOf (m.nodes.getD 0 default) c = none)
    (h2 : (m.nodes.getD 0 default).failure = none) :
    ∀ fuel, m.findTransition c fuel 0 = none := by
  have hf : failNext m.nodes 0 = 0 := by
    unfold failNext
    rw [h2]
  intro fuel
  induction fuel with
  | zero =>
    rw [AhoCorasickMatcher.findTransition, h1]
    rfl
  | succ n ih =>
    rw [AhoCorasickMatcher.findTransition, h1]
    simpa [hf] using ih

/-- Claim C6 (code bug): scanning `"Marshmallow is not Mars"` with pattern
  `"Mars"` never returns.  At input position 4 (the `h` of
  `"Marshmallow"`) there is no `h` transition anywhere, and the failure
  walk loops at the root for ever, whatever fuel it is given — the code
  cannot yield the one match at offset 19 that the spec (and the
  repository's own test) promise. -/
theorem find_all_mars_diverges :
    ∀ fuel : Nat, marsMatcher.find_all marsText true fuel = none := by
  have hstuck : ∀ fuel, marsMatcher.findTransition 'h' fuel 0 = none :=
    findTransition_root_stuck marsMatcher 'h' (by decide) (by decide)
  intro fuel
  have w0 : marsMatcher.findTransition 'm' fuel 0 = some 0 := by
    cases fuel <;> rfl
  have w1 : marsMatcher.findTransition 'a' fuel 1 = some 1 := by
    cases fuel <;> rfl
  have w2 : marsMatcher.findTransition 'r' fuel 2 = some 2 := by
    cases fuel <;> rfl
  have w3 : marsMatcher.findTransition 's' fuel 3 = some 3 := by
    cases fuel <;> rfl
  have w4 : marsMatcher.findTransition 'h' fuel 4 = none := by
    cases fuel with
    | zero => rfl
    | succ n => exact hstuck n
  show marsMatcher.findAllLoop marsText true fuel
    ((marsText.map Char.toLower).enum) 0 = none
  rw [show (marsText.map Char.toLower).enum
        = (0, 'm') :: (1, 'a') :: (2, 'r') :: (3, 's') :: (4, 'h') ::
          (("mallow is not mars".toList).enumFrom 5) from by decide]
  have c0 : childOf (marsMatcher.nodes.getD 0 default) 'm' = some 1 := by decide
  have c1 : childOf (marsMatcher.nodes.getD 1 default) 'a' = some 2 := by decide
  have c2 : childOf (marsMatcher.nodes.getD 2 default) 'r' = some 3 := by decide
  have c3 : childOf (marsMatcher.nodes.getD 3 default) 's' = some 4 := by decide
  rw [AhoCorasickMatcher.findAllLoop, w0]
  simp only [c0]
  rw [AhoCorasickMatcher.findAllLoop, w1]
  simp only [c1]
  rw [AhoCorasickMatcher.findAllLoop, w2]
  simp only [c2]
  rw [AhoCorasickMatcher.findAllLoop, w3]
  simp only [c3]
  rw [AhoCorasickMatcher.findAllLoop, w4]

theorem getD_mem_or (nodes : List ACNode) (i : Nat) :
    nodes.getD i default ∈ nodes ∨ nodes.getD i default = default := by
  by_cases h : i < nodes.length
  · left
    rw [List.getD_eq_getElem?_getD, List.getElem?_eq_getElem h]
    exact List.getElem_mem h
  · right
    rw [List.getD_eq_getElem?_getD, List.getElem?_eq_none (by omega)]
    rfl

theorem childOf_target {nodes : List ACNode} {cur : Nat} {c : Char} {j : Nat}
    (ht : Targets1 nodes)
    (h : childOf (nodes.getD cur default) c = some j) : 1 ≤ j := by
  unfold childOf at h
  rcases hf : ((nodes.getD cur default).children.find? fun p => p.1 == c) with _ | p
  · rw [hf] at h; simp at h
  · rw [hf] at h
    simp at h
    rcases getD_mem_or nodes cur with hm | hm
    · have := ht _ hm p (List.mem_of_find?_eq_some hf)
      omega
    · rw [hm] at hf
      simp [default] at hf

theorem modifyIdx_getD_zero {nodes : List ACNode} {i : Nat} {f : ACNode → ACNode}
    (h : 1 ≤ i) : (modifyIdx nodes i f).getD 0 default = nodes.getD 0 default := by
  unfold modifyIdx
  rw [List.getD_eq_getElem?_getD, List.getElem?_set_ne (by omega),
    ← List.getD_eq_getElem?_getD]

theorem Targets1_modifyIdx {nodes : List ACNode} {i : Nat} {f : ACNode → ACNode}
    (hf : ∀ n, (f n).children = n.children) (ht : Targets1 nodes) :
    Targets1 (modifyIdx nodes i f) := by
  intro n hn p hp
  rcases List.mem_or_eq_of_mem_set hn with h | h
  · exact ht n h p hp
  · subst h
    rw [hf] at hp
    rcases getD_mem_or nodes i with hm | hm
    · exact ht _ hm p hp
    · rw [hm] at hp
      rw [show (default : ACNode).children = [] from rfl] at hp
      simp at hp

theorem Targets1_append_default {nodes : List ACNode} (ht : Targets1 nodes) :
    Targets1 (nodes ++ [default]) := by
  intro n hn p hp
  rcases List.mem_append.mp hn with h | h
  · exact ht n h p hp
  · rw [List.mem_singleton] at h
    subst h
    rw [show (default : ACNode).children = [] from rfl] at hp
    simp at hp

theorem insertChars_inv :
    ∀ (cs : List Char) (cur : Nat) (nodes : List ACNode),
      1 ≤ cur → Targets1 nodes → 1 ≤ nodes.length →
      (insertChars cs cur nodes).1.getD 0 default = nodes.getD 0 default ∧
        Targets1 (insertChars cs cur nodes).1 ∧
        1 ≤ (insertChars cs cur nodes).1.length ∧
        1 ≤ (insertChars cs cur nodes).2 := by
  intro cs
  induction cs with
  | nil =>
    intro cur nodes hcur ht hl
    exact ⟨rfl, ht, hl, hcur⟩
  | cons c cs ih =>
    intro cur nodes hcur ht hl
    rw [insertChars]
    rcases hchild : childOf (nodes.getD cur default) c with _ | ⟨j⟩
    · simp only [hchild]
      set nodes' := modifyIdx (nodes ++ [default]) cur
        (fun n => { n with children := n.children ++ [(c, nodes.length)] }) with hnodes'
      have hlen' : nodes'.length = nodes.length + 1 := by
        rw [hnodes']
        unfold modifyIdx
        rw [List.length_set, List.length_append, List.length_singleton]
      have ht' : Targets1 nodes' := by
        intro n hn p hp
        rcases List.mem_or_eq_of_mem_set hn with h | h
        · exact Targets1_append_default ht n h p hp
        · subst h
          simp only at hp
          rcases List.mem_append.mp hp with h | h
          · rcases getD_mem_or (nodes ++ [default]) cur with hm | hm
            · exact Targets1_append_default ht _ hm p h
            · rw [hm] at h
              rw [show (default : ACNode).children = [] from rfl] at h
              simp at h
          · rw [List.mem_singleton] at h
            subst h
            exact hl
      have hroot' : nodes'.getD 0 default = nodes.getD 0 default := by
        rw [hnodes', modifyIdx_getD_zero hcur, List.getD_eq_getElem?_getD,
          List.getElem?_append_left (by omega), ← List.getD_eq_getElem?_getD]
      obtain ⟨ih1, ih2, ih3, ih4⟩ := ih nodes.length nodes' hl ht' (by omega)
      exact ⟨by rw [ih1, hroot'], ih2, ih3, ih4⟩
    · simp only [hchild]
      exact ih j nodes (childOf_target ht hchild) ht hl

theorem childOf_append_edge (n : ACNode) (c c0 : Char) (j : Nat)
    (h1 : childOf n c = none) (hne : c0 ≠ c) :
    childOf { n with children := n.children ++ [(c0, j)] } c = none := by
  have hb : (c0 == c) = false := by simpa using hne
  unfold childOf at h1 ⊢
  simp only [List.find?_append]
  rcases hf : (n.children.find? fun p => p.1 == c) with _ | q
  · rw [hf]
    simp [List.find?, hb]
  · rw [hf] at h1
    simp at h1

theorem add_pattern_rootSafe {c : Char} {m : AhoCorasickMatcher}
    (p : String) (md : PatternMeta)
    (hhead : (strToLower p).toList.head? ≠ some c)
    (hs : RootSafe c m) : RootSafe c (m.add_pattern p md) := by
  obtain ⟨h1, h2, ht, hl, hcs⟩ := hs
  unfold AhoCorasickMatcher.add_pattern
  by_cases he : p.isEmpty
  · rw [if_pos he]
    exact ⟨h1, h2, ht, hl, hcs⟩
  · rw [if_neg he]
    simp only [hcs, Bool.false_eq_true, if_false]
    rcases hkey : (strToLower p).toList with _ | ⟨c0, cs⟩
    · exfalso
      apply he
      have hmap : p.toList.map Char.toLower = [] := by
        rw [show p.toList.map Char.toLower = (strToLower p).toList from rfl, hkey]
      rw [List.map_eq_nil_iff] at hmap
      cases p with
      | mk data =>
        rw [show (String.mk data).toList = data from rfl] at hmap
        rw [hmap]
        rfl
    · have hc0 : c0 ≠ c := by
        rw [hkey] at hhead
        simp at hhead
        exact hhead
      rw [insertChars]
      have hfinal :
          ∀ r : List ACNode × Nat,
            childOf (r.1.getD 0 default) c = none →
            (r.1.getD 0 default).failure = none →
            Targets1 r.1 → 1 ≤ r.1.length → 1 ≤ r.2 →
            RootSafe c (AhoCorasickMatcher.mk
              (modifyIdx r.1 r.2 (fun n =>
                { n with is_end := true, outputs := n.outputs ++ [(p, md)] }))
              false m.patterns_added) := by
        intro r hrc hrf ht' hl' h2'
        have e1 : (AhoCorasickMatcher.mk
              (modifyIdx r.1 r.2 (fun n =>
                { n with is_end := true, outputs := n.outputs ++ [(p, md)] }))
              false m.patterns_added).nodes = modifyIdx r.1 r.2 (fun n =>
              { n with is_end := true, outputs := n.outputs ++ [(p, md)] }) := rfl
        refine ⟨?_, ?_, ?_, ?_, rfl⟩
        · rw [e1, modifyIdx_getD_zero h2']
          exact hrc
        · rw [e1, modifyIdx_getD_zero h2']
          exact hrf
        · rw [e1]
          exact Targets1_modifyIdx (fun n => rfl) ht'
        · rw [e1]
          unfold modifyIdx
          rw [List.length_set]
          exact hl'
      rcases hchild : childOf (m.nodes.getD 0 default) c0 with _ | ⟨j⟩
      · simp only [hchild]
        set nodes' := modifyIdx (m.nodes ++ [default]) 0
          (fun n => { n with children := n.children ++ [(c0, m.nodes.length)] })
          with hnodes'
        have hgd : (m.nodes ++ [default]).getD 0 default = m.nodes.getD 0 default := by
          rw [List.getD_eq_getElem?_getD, List.getElem?_append_left (by omega),
            ← List.getD_eq_getElem?_getD]
        have hroot' : nodes'.getD 0 default =
            { m.nodes.getD 0 default with children :=
                (m.nodes.getD 0 default).children ++ [(c0, m.nodes.length)] } := by
          rw [hnodes']
          unfold modifyIdx
          rw [List.getD_eq_getElem?_getD,
            List.getElem?_set_self (by rw [List.length_append]; omega)]
          rw [Option.getD_some, hgd]
        have ht' : Targets1 nodes' := by
          intro n hn q hq
          rcases List.mem_or_eq_of_mem_set hn with h | h
          · exact Targets1_append_default ht n h q hq
          · subst h
            simp only at hq
            rcases List.mem_append.mp hq with h | h
            · rcases getD_mem_or (m.nodes ++ [default]) 0 with hm | hm
              · exact Targets1_append_default ht _ hm q h
              · rw [hm] at h
                rw [show (default : ACNode).children = [] from rfl] at h
                simp at h
            · rw [List.mem_singleton] at h
              subst h
              exact hl
        have hlen' : 1 ≤ nodes'.length := by
          rw [hnodes']
          unfold modifyIdx
          rw [List.length_set, List.length_append]
          omega
        obtain ⟨ih1, ih2, ih3, ih4⟩ :=
          insertChars_inv cs m.nodes.length nodes' hl ht' hlen'
        apply hfinal _ ?_ ?_ ih2 ih3 ih4
        · rw [ih1, hroot']
          exact childOf_append_edge _ c c0 m.nodes.length h1 hc0
        · rw [ih1, hroot']
          exact h2
      · simp only [hchild]
        obtain ⟨ih1, ih2, ih3, ih4⟩ :=
          insertChars_inv cs j m.nodes (childOf_target ht hchild) ht hl
        apply hfinal _ ?_ ?_ ih2 ih3 ih4
        · rw [ih1]
          exact h1
        · rw [ih1]
          exact h2

theorem foldl_rootSafe {α : Type} {c : Char}
    (step : AhoCorasickMatcher → α → AhoCorasickMatcher) :
    ∀ (l : List α) (m : AhoCorasickMatcher), RootSafe c m →
      (∀ m' x, x ∈ l → RootSafe c m' → RootSafe c (step m' x)) →
      RootSafe c (l.foldl step m) := by
  intro l
  induction l with
  | nil => intro m hm _; exact hm
  | cons x xs ih =>
    intro m hm hstep
    rw [List.foldl_cons]
    exact ih (step m x) (hstep m x (by simp) hm)
      (fun m' y hy h => hstep m' y (by simp [hy]) h)

/-- A stopword-filtered / identity step preserves root safety whenever the
  added pattern's lowered key does not begin with `c`. -/
theorem load_patterns_rootSafe {c : Char} (gazetteer : Gazetteer)
    (aliases : List AliasEntry) (m : AhoCorasickMatcher)
    (hg : ∀ pe ∈ gazetteer.entities, ∀ e ∈ pe.2,
      (strToLower e).toList.head? ≠ some c)
    (ha : ∀ a ∈ aliases, (strToLower a.aliasText).toList.head? ≠ some c)
    (hm : ∀ w ∈ gazetteer.metrics, (strToLower w).toList.head? ≠ some c)
    (hw : ∀ w ∈ gazetteer.timewords, (strToLower w).toList.head? ≠ some c)
    (hs : RootSafe c m) :
    RootSafe c (load_patterns gazetteer aliases m) := by
  unfold load_patterns
  apply foldl_rootSafe
  · apply foldl_rootSafe
    · apply foldl_rootSafe
      · apply foldl_rootSafe
        · exact hs
        · intro m' pe hpe h
          apply foldl_rootSafe
          · exact h
          · intro m'' e he h'
            by_cases hsw : strToLower e ∉ stopwords
            · rw [if_pos hsw]
              exact add_pattern_rootSafe e _ (hg pe hpe e he) h'
            · rw [if_neg hsw]
              exact h'
      · intro m' a hax h
        by_cases hsw : strToLower a.aliasText ∉ stopwords
        · rw [if_pos hsw]
          exact add_pattern_rootSafe a.aliasText _ (ha a hax) h
        · rw [if_neg hsw]
          exact h
    · intro m' w hwx h
      exact add_pattern_rootSafe w _ (hm w hwx) h
  · intro m' w hwx h
    exact add_pattern_rootSafe w _ (hw w hwx) h

theorem modifyIdx_length (nodes : List ACNode) (i : Nat) (f : ACNode → ACNode) :
    (modifyIdx nodes i f).length = nodes.length := by
  unfold modifyIdx
  rw [List.length_set]

theorem processChild_preserves {nodes : List ACNode} {c : Char} {childIdx : Nat}
    {curF : Option Nat} (h : 1 ≤ childIdx) (ht : Targets1 nodes) :
    (processChild nodes c childIdx curF).getD 0 default = nodes.getD 0 default ∧
      Targets1 (processChild nodes c childIdx curF) ∧
      (processChild nodes c childIdx curF).length = nodes.length := by
  unfold processChild
  set tgt := (match findFailure nodes nodes.length curF c with
    | some fi =>
      match childOf (nodes.getD fi default) c with
      | some j => j
      | none => 0
    | none => 0) with htgt
  set nodes' := modifyIdx nodes childIdx (fun n => { n with failure := some tgt })
    with hnodes'
  have h1 : nodes'.getD 0 default = nodes.getD 0 default := modifyIdx_getD_zero h
  have ht1 : Targets1 nodes' := Targets1_modifyIdx (fun n => rfl) ht
  have hlen1 : nodes'.length = nodes.length := modifyIdx_length nodes childIdx _
  by_cases hout : ((nodes'.getD tgt default).outputs).isEmpty
  · rw [if_pos hout]
    exact ⟨h1, ht1, hlen1⟩
  · rw [if_neg hout]
    refine ⟨?_, Targets1_modifyIdx (fun n => rfl) ht1, ?_⟩
    · rw [modifyIdx_getD_zero h]
      exact h1
    · rw [modifyIdx_length, hlen1]

theorem bfsStep_preserves {nodes : List ACNode} {cur : Nat} :
    ∀ (ch : List (Char × Nat)), (∀ p ∈ ch, 1 ≤ p.2) →
    ∀ (acc1 : List ACNode) (accq : List Nat),
      Targets1 acc1 → acc1.getD 0 default = nodes.getD 0 default →
      acc1.length = nodes.length →
      Targets1 (ch.foldl
        (fun (acc : List ACNode × List Nat) p =>
          (processChild acc.1 p.1 p.2 ((acc.1.getD cur default).failure),
            acc.2 ++ [p.2])) (acc1, accq)).1 ∧
      (ch.foldl
        (fun (acc : List ACNode × List Nat) p =>
          (processChild acc.1 p.1 p.2 ((acc.1.getD cur default).failure),
            acc.2 ++ [p.2])) (acc1, accq)).1.getD 0 default
        = nodes.getD 0 default ∧
      (ch.foldl
        (fun (acc : List ACNode × List Nat) p =>
          (processChild acc.1 p.1 p.2 ((acc.1.getD cur default).failure),
            acc.2 ++ [p.2])) (acc1, accq)).1.length = nodes.length := by
  intro ch
  induction ch with
  | nil => intro _ acc1 accq ht hroot hlen; exact ⟨ht, hroot, hlen⟩
  | cons p ps ih =>
    intro hsub acc1 accq ht hroot hlen
    rw [List.foldl_cons]
    obtain ⟨hp1, hp2, hp3⟩ := @processChild_preserves acc1 p.1 p.2
      ((acc1.getD cur default).failure) (hsub p (by simp)) ht
    exact ih (fun q hq => hsub q (by simp [hq])) _ _
      hp2 (by rw [hp1, hroot]) (by rw [hp3, hlen])

theorem bfsLoop_preserves :
    ∀ (fuel : Nat) (queue : List Nat) (nodes : List ACNode),
      Targets1 nodes →
      (bfsLoop fuel queue nodes).getD 0 default = nodes.getD 0 default ∧
        Targets1 (bfsLoop fuel queue nodes) ∧
        (bfsLoop fuel queue nodes).length = nodes.length := by
  intro fuel
  induction fuel with
  | zero =>
    intro queue nodes ht
    cases queue with
    | nil => exact ⟨rfl, ht, rfl⟩
    | cons q qs => exact ⟨rfl, ht, rfl⟩
  | succ n ih =>
    intro queue nodes ht
    cases queue with
    | nil => exact ⟨rfl, ht, rfl⟩
    | cons cur rest =>
      rw [bfsLoop]
      have hch : ∀ p ∈ (nodes.getD cur default).children, 1 ≤ p.2 := by
        intro p hp
        rcases getD_mem_or nodes cur with hm | hm
        · exact ht _ hm p hp
        · rw [hm, show (default : ACNode).children = [] from rfl] at hp
          simp at hp
      obtain ⟨hs1, hs2, hs3⟩ := bfsStep_preserves
        ((nodes.getD cur default).children) hch nodes rest ht rfl rfl
      obtain ⟨hb1, hb2, hb3⟩ := ih _ _ hs1
      exact ⟨by rw [hb1, hs2], hb2, by rw [hb3, hs3]⟩

theorem build_rootSafe {c : Char} {m : AhoCorasickMatcher}
    (hs : RootSafe c m) : RootSafe c (m.build_failure_links) := by
  obtain ⟨h1, h2, ht, hl, hcs⟩ := hs
  unfold AhoCorasickMatcher.build_failure_links
  have hroots : ∀ j ∈ ((m.nodes.getD 0 default).children).map (·.2), 1 ≤ j := by
    intro j hj
    rw [List.mem_map] at hj
    obtain ⟨p, hp, hpj⟩ := hj
    rcases getD_mem_or m.nodes 0 with hm | hm
    · have := ht _ hm p hp
      omega
    · rw [hm, show (default : ACNode).children = [] from rfl] at hp
      simp at hp
  have hseed :
      ∀ (js : List Nat) (hjs : ∀ j ∈ js, 1 ≤ j) (nodes : List ACNode),
        Targets1 nodes → nodes.getD 0 default = m.nodes.getD 0 default →
        nodes.length = m.nodes.length →
        Targets1 (js.foldl
            (fun ns j => modifyIdx ns j fun n => { n with failure := some 0 }) nodes) ∧
          (js.foldl
            (fun ns j => modifyIdx ns j fun n => { n with failure := some 0 })
            nodes).getD 0 default = m.nodes.getD 0 default ∧
          (js.foldl
            (fun ns j => modifyIdx ns j fun n => { n with failure := some 0 })
            nodes).length = m.nodes.length := by
    intro js
    induction js with
    | nil => intro _ nodes ht' hroot hlen; exact ⟨ht', hroot, hlen⟩
    | cons j js ih =>
      intro hjs nodes ht' hroot hlen
      rw [List.foldl_cons]
      exact ih (fun q hq => hjs q (by simp [hq])) _
        (Targets1_modifyIdx (fun n => rfl) ht')
        (by rw [modifyIdx_getD_zero (hjs j (by simp)), hroot])
        (by rw [modifyIdx_length, hlen])
  obtain ⟨hse1, hse2, hse3⟩ := hseed _ hroots m.nodes ht rfl rfl
  obtain ⟨hb1, hb2, hb3⟩ := bfsLoop_preserves _ _ _ hse1
  refine ⟨?_, ?_, hb2, ?_, hcs⟩
  · show childOf ((bfsLoop _ _ _).getD 0 default) c = none
    rw [hb1, hse2]
    exact h1
  · show ((bfsLoop _ _ _).getD 0 default).failure = none
    rw [hb1, hse2]
    exact h2
  · show 1 ≤ (bfsLoop _ _ _).length
    rw [hb3, hse3]
    exact hl

/-- No default vocabulary item begins with the letter `a`, so the built
  automaton's root has no `a`-edge (and, as for every automaton this code
  builds, the root's failure link is `None`). -/
theorem defaultMatcher_rootSafe : RootSafe 'a' defaultEntityMatcher.matcher := by
  apply build_rootSafe
  apply load_patterns_rootSafe
  · decide
  · decide
  · decide
  · decide
  · refine ⟨rfl, rfl, ?_, by decide, rfl⟩
    intro n hn p hp
    rw [show (AhoCorasickMatcher.init false).nodes = [default] from rfl,
      List.mem_singleton] at hn
    subst hn
    rw [show (default : ACNode).children = [] from rfl] at hp
    simp at hp

/-- Claim C9 (code bug): the façade does truncate a 600-character input to
  its first 500 characters before scanning (first conjunct, the
  truncation of `recognize`), but recognition of the truncated all-`a`
  text never returns: no default vocabulary item starts with `a`, so at
  the very first character the scanner's failure walk loops at the root
  for ever, whatever fuel it is given.  The promised `tagged_text` of
  length at most 500 (asserted by the repository's own test
  `test_text_length_limit`) is never produced. -/
theorem recognize_entities_600a_diverges :
    (if 500 < (List.replicate 600 'a').length then (List.replicate 600 'a').take 500
      else List.replicate 600 'a') = List.replicate 500 'a' ∧
    ∀ fuel : Nat,
      defaultEntityMatcher.recognize_entities (List.replicate 500 'a') fuel = none := by
  constructor
  · rw [if_pos (by rw [List.length_replicate]; norm_num), List.take_replicate]
    rw [show (500 ⊓ 600 : Nat) = 500 from by norm_num]
  · intro fuel
    obtain ⟨h1, h2, -, -, hcs⟩ := defaultMatcher_rootSafe
    have hfa : defaultEntityMatcher.matcher.find_all
        (List.replicate 500 'a') true fuel = none := by
      unfold AhoCorasickMatcher.find_all
      rw [show defaultEntityMatcher.matcher.patterns_added = true from rfl]
      simp only [Bool.not_true, Bool.false_eq_true, if_false]
      rw [hcs]
      simp only [Bool.false_eq_true, if_false]
      rw [List.map_replicate, show Char.toLower 'a' = 'a' from rfl]
      rw [show (500 : Nat) = 499 + 1 from rfl, List.replicate_succ, List.enum_cons]
      rw [AhoCorasickMatcher.findAllLoop,
        findTransition_root_stuck defaultEntityMatcher.matcher 'a' h1 h2 fuel]
    unfold EntityMatcher.recognize_entities
    rw [hfa]

/-- Claim C7: the façade never raises — whenever the internal
  scan/resolve/tag pipeline throws, `recognize` returns a result with
  empty `entities`, the (possibly truncated) input text as `tagged_text`,
  a non-null `error` string and the `processing_time_ms` stamp. -/
theorem recognize_catches_errors
    (pipeline : List Char → Except String RecognizeOutput)
    (elapsed_ms : ℚ) (text : List Char) (e : String)
    (h : pipeline (if 500 < text.length then text.take 500 else text) =
      .error e) :
    (recognize pipeline elapsed_ms text).entities = [] ∧
      (recognize pipeline elapsed_ms text).tagged_text =
        (if 500 < text.length then text.take 500 else text) ∧
      (recognize pipeline elapsed_ms text).error = some e ∧
      (recognize pipeline elapsed_ms text).error ≠ none ∧
      (recognize pipeline elapsed_ms text).processing_time_ms = elapsed_ms := by
  unfold recognize
  simp [h]

/-- Witness for claim C7: a pipeline that always throws. -/
theorem recognize_catches_errors_witness :
    (recognize (fun _ => .error "scan failed") 7 "hello".toList).entities = [] ∧
      (recognize (fun _ => .error "scan failed") 7 "hello".toList).tagged_text =
        (if 500 < ("hello".toList).length then ("hello".toList).take 500
          else "hello".toList) ∧
      (recognize (fun _ => .error "scan failed") 7 "hello".toList).error =
        some "scan failed" ∧
      (recognize (fun _ => .error "scan failed") 7 "hello".toList).error ≠ none ∧
      (recognize (fun _ => .error "scan failed") 7 "hello".toList).processing_time_ms
        = 7 :=
  recognize_catches_errors (fun _ => .error "scan failed") 7 "hello".toList
    "scan failed" rfl

/-- Claim C10: fuzzy enhancement never removes or alters an exact match —
  `enhanced_entities` is the exact-match list (unchanged, in order)
  followed only by fuzzy results, and equals it exactly when the backend
  is disabled. -/
theorem enhance_preserves_exact (fm : FuzzyMatcher) (text : List Char)
    (exact_matches : List Entity) :
    (∃ suffix : List (Entity ⊕ FuzzyResult),
      (fm.enhance_with_fuzzy_matching text exact_matches).enhanced_entities
        = exact_matches.map Sum.inl ++ suffix ∧
      ∀ s ∈ suffix, ∃ f : FuzzyResult, s = Sum.inr f) ∧
    (fm.enabled = false →
      (fm.enhance_with_fuzzy_matching text exact_matches).enhanced_entities
        = exact_matches.map Sum.inl) := by
  constructor
  · rw [FuzzyMatcher.enhance_with_fuzzy_matching]
    by_cases he : fm.enabled
    · simp only [he, Bool.not_true, Bool.false_eq_true, if_false]
      refine ⟨_, rfl, ?_⟩
      intro s hs
      rcases List.mem_map.1 hs with ⟨f, _, hf⟩
      exact ⟨f, hf.symm⟩
    · simp only [Bool.not_eq_true] at he
      simp only [he, Bool.not_false, if_true]
      exact ⟨[], (List.append_nil _).symm, fun s hs => absurd hs (List.not_mem_nil s)⟩
  · intro h
    rw [FuzzyMatcher.enhance_with_fuzzy_matching, h]
    rfl

theorem enhance_preserves_exact_witness :
    (disabledFM.enhance_with_fuzzy_matching "test text".toList
        [witnessEntity]).enhanced_entities = [Sum.inl witnessEntity] :=
  (enhance_preserves_exact disabledFM "test text".toList [witnessEntity]).2 rfl

/-- Every result kept by `find_fuzzy_matches` has confidence at or above
  the matcher's threshold (the explicit `confidence >=
  self.confidence_threshold` filter), provided the result cache holds no
  below-threshold entry — a cache hit is returned unfiltered. -/
theorem find_fuzzy_matches_conf (fm : FuzzyMatcher) (text : String) (n : Nat)
    (hc : ∀ kv ∈ fm.match_cache, ∀ f ∈ kv.2,
      fm.confidence_threshold ≤ f.confidence) :
    ∀ f ∈ fm.find_fuzzy_matches text n, fm.confidence_threshold ≤ f.confidence := by
  intro f hf
  rw [FuzzyMatcher.find_fuzzy_matches] at hf
  split at hf
  · cases hf
  · split at hf
    next cached heq =>
      rcases Option.map_eq_some'.1 heq with ⟨kv, hkv, hkv2⟩
      refine hc kv (List.mem_of_find?_eq_some hkv) f ?_
      rw [hkv2]
      exact hf
    next heq =>
      have h1 := List.mem_of_mem_take hf
      have h2 := (List.perm_insertionSort confDesc _).mem_iff.1 h1
      rcases List.mem_filterMap.1 h2 with ⟨mt, _, hmt⟩
      dsimp only at hmt
      split at hmt
      case isTrue h =>
        rw [Option.some.injEq] at hmt
        rw [← hmt]
        exact h
      case isFalse => cases hmt

/-- The deduplication loop only ever keeps elements of its input list. -/
theorem dedupFuzzy_subset (l : List FuzzyResult) (seen : List String) :
    ∀ f ∈ dedupFuzzy l seen, f ∈ l := by
  induction l generalizing seen with
  | nil =>
    intro f hf
    rw [dedupFuzzy] at hf
    cases hf
  | cons m rest ih =>
    intro f hf
    rw [dedupFuzzy] at hf
    split at hf
    · exact List.mem_cons_of_mem _ (ih _ f hf)
    · rw [List.mem_cons] at hf
      rcases hf with rfl | hf
      · exact List.mem_cons_self _ _
      · exact List.mem_cons_of_mem _ (ih _ f hf)

/-- Every result accumulated by the segment loop of
  `find_fuzzy_matches_in_segments` has confidence at or above the
  threshold (given that the initial accumulator does). -/
theorem segs_fold_conf (fm : FuzzyMatcher) (segs : List String)
    (acc : List FuzzyResult)
    (hacc : ∀ f ∈ acc, fm.confidence_threshold ≤ f.confidence)
    (hc : ∀ kv ∈ fm.match_cache, ∀ f ∈ kv.2,
      fm.confidence_threshold ≤ f.confidence) :
    ∀ f ∈ segs.foldl
      (fun acc segment =>
        let segment := strTrim segment
        if 2 ≤ segment.length then acc ++ fm.find_fuzzy_matches segment 3 else acc)
      acc, fm.confidence_threshold ≤ f.confidence := by
  induction segs generalizing acc with
  | nil => exact hacc
  | cons s rest ih =>
    rw [List.foldl_cons]
    refine ih _ ?_
    intro g hg
    dsimp only at hg
    by_cases h2 : 2 ≤ (strTrim s).length
    · rw [if_pos h2] at hg
      rcases List.mem_append.1 hg with h | h
      · exact hacc g h
      · exact find_fuzzy_matches_conf fm _ 3 hc g h
    · rw [if_neg h2] at hg
      exact hacc g hg

/-- Every result of `find_fuzzy_matches_in_segments` has confidence at or
  above the threshold, provided the result cache holds no below-threshold
  entry. -/
theorem in_segments_conf (fm : FuzzyMatcher) (segs : List String)
    (hc : ∀ kv ∈ fm.match_cache, ∀ f ∈ kv.2,
      fm.confidence_threshold ≤ f.confidence) :
    ∀ f ∈ fm.find_fuzzy_matches_in_segments segs,
      fm.confidence_threshold ≤ f.confidence := by
  intro f hf
  rw [FuzzyMatcher.find_fuzzy_matches_in_segments] at hf
  dsimp only at hf
  have h1 := dedupFuzzy_subset _ _ f hf
  have h2 := (List.perm_insertionSort confDesc _).mem_iff.1 h1
  exact segs_fold_conf fm segs [] (fun g hg => absurd hg (List.not_mem_nil g))
    hc f h2

/-- When every element of the fold input is at or above the threshold, the
  suggestion/high-confidence split of `enhance_with_fuzzy_matching` routes
  everything into the second component. -/
theorem split_fold_all_high (fm : FuzzyMatcher) (l : List FuzzyResult)
    (hl : ∀ f ∈ l, fm.confidence_threshold ≤ f.confidence)
    (s0 : List Suggestion) (e0 : List FuzzyResult) :
    l.foldl
      (fun (acc : List Suggestion × List FuzzyResult) m =>
        if fm.confidence_threshold ≤ m.confidence then (acc.1, acc.2 ++ [m])
        else (acc.1 ++ [⟨m.text, m.confidence, m.type, "fuzzy_match",
          m.original_query⟩], acc.2))
      (s0, e0) = (s0, e0 ++ l) := by
  induction l generalizing e0 with
  | nil => simp
  | cons m rest ih =>
    rw [List.foldl_cons]
    dsimp only
    rw [if_pos (hl m (List.mem_cons_self m rest))]
    rw [ih (fun f hf => hl f (List.mem_cons_of_mem m hf))]
    simp

/-- Claim C5 (amended): within a call whose result cache holds no
  below-threshold entry — in particular on a fresh matcher, or whenever
  the shared threshold has not been raised above that of earlier cached
  requests — the threshold splits nothing between entities and
  suggestions: `find_fuzzy_matches` already discards every candidate
  below the threshold, so every fuzzy result of an enabled enhancement
  is at or above the threshold and is merged into `enhanced_entities`,
  while `suggestions` stays empty. -/
theorem enhance_threshold_behavior (fm : FuzzyMatcher) (text : List Char)
    (exact_matches : List Entity) (he : fm.enabled = true)
    (hc : ∀ kv ∈ fm.match_cache, ∀ f ∈ kv.2,
      fm.confidence_threshold ≤ f.confidence) :
    (fm.enhance_with_fuzzy_matching text exact_matches).suggestions = [] ∧
    ∀ f ∈ (fm.enhance_with_fuzzy_matching text exact_matches).fuzzy_matches,
      fm.confidence_threshold ≤ f.confidence ∧
      Sum.inr f ∈ (fm.enhance_with_fuzzy_matching text exact_matches).enhanced_entities := by
  have hfm := in_segments_conf fm (find_unmatched_segments text exact_matches) hc
  rw [FuzzyMatcher.enhance_with_fuzzy_matching]
  simp only [he, Bool.not_true, Bool.false_eq_true, if_false]
  rw [split_fold_all_high fm _ hfm [] []]
  dsimp only
  refine ⟨rfl, ?_⟩
  intro f hf
  exact ⟨hfm f hf,
    List.mem_append_right _ (List.mem_map_of_mem Sum.inr hf)⟩

theorem enhance_threshold_behavior_witness :
    highScoreFM.enabled = true ∧
    (∀ kv ∈ highScoreFM.match_cache, ∀ f ∈ kv.2,
      highScoreFM.confidence_threshold ≤ f.confidence) ∧
    (highScoreFM.enhance_with_fuzzy_matching "cadbry".toList []).suggestions = [] :=
  ⟨rfl, by decide,
    (enhance_threshold_behavior highScoreFM "cadbry".toList [] rfl (by decide)).1⟩

attribute [local semireducible] Rat.mul Rat.inv in
/-- Claim C5 counterexample: a candidate scored 70 by the backend (below
  the 0.8 threshold) is dropped entirely — the suggestions list stays
  empty and the candidate reaches neither `fuzzy_matches` nor
  `enhanced_entities`, contradicting the claimed below-threshold
  suggestion routing. -/
theorem enhance_drops_low_confidence :
    lowScoreFM.extract "cadbry" lowScoreFM.all_entities 6
        (lowScoreFM.confidence_threshold * 100) = [("cadbury", 70)] ∧
    ¬ lowScoreFM.confidence_threshold ≤ (70 : ℚ) / 100 ∧
    (lowScoreFM.enhance_with_fuzzy_matching "cadbry".toList []).suggestions = [] ∧
    (lowScoreFM.enhance_with_fuzzy_matching "cadbry".toList []).fuzzy_matches = [] ∧
    (lowScoreFM.enhance_with_fuzzy_matching "cadbry".toList []).enhanced_entities
      = [] := by
  decide

/-- Claim C8 (amended): stopword filtering is applied to the typed entity
  lists and the alias records — a stopword entity or alias leaves the
  loaded pattern store unchanged — while metric and time-period words are
  added verbatim with no filter, and the empty pattern is never stored. -/
theorem load_patterns_stopword_amended (g : Gazetteer) (al : List AliasEntry)
    (m : AhoCorasickMatcher) (ty w : String) (a : AliasEntry)
    (hw : strToLower w ∈ stopwords) (ha : strToLower a.aliasText ∈ stopwords) :
    load_patterns ⟨(ty, [w]) :: g.entities, g.metrics, g.timewords⟩ al m
        = load_patterns g al m
    ∧ load_patterns g (a :: al) m = load_patterns g al m
    ∧ (∀ w2 : String, load_patterns ⟨[], [w2], []⟩ [] m
        = m.add_pattern w2 ⟨"metric", w2, none, 1⟩)
    ∧ (∀ w2 : String, load_patterns ⟨[], [], [w2]⟩ [] m
        = m.add_pattern w2 ⟨"time_period", w2, none, 1⟩)
    ∧ (∀ md : PatternMeta, m.add_pattern "" md = m) := by
  refine ⟨?_, ?_, fun w2 => rfl, fun w2 => rfl, fun md => rfl⟩
  · rw [load_patterns, load_patterns]
    dsimp only
    rw [List.foldl_cons]
    dsimp only
    rw [List.foldl_cons, if_neg (not_not_intro hw), List.foldl_nil]
  · rw [load_patterns, load_patterns, List.foldl_cons]
    rw [if_neg (not_not_intro ha)]

theorem load_patterns_stopword_amended_witness :
    strToLower "The" ∈ stopwords ∧
    strToLower stopAlias.aliasText ∈ stopwords ∧
    load_patterns ⟨("manufacturers", ["The"]) :: [], [], []⟩ []
        (AhoCorasickMatcher.init false)
      = load_patterns ⟨[], [], []⟩ [] (AhoCorasickMatcher.init false) :=
  ⟨by decide, by decide,
    (load_patterns_stopword_amended ⟨[], [], []⟩ []
      (AhoCorasickMatcher.init false) "manufacturers" "The" stopAlias
      (by decide) (by decide)).1⟩

/-- Claim C8 counterexample: the metric word list is not stopword-filtered
  — loading a gazetteer whose metrics contain the stopword `"the"` stores
  `"the"` as a match pattern. -/
theorem load_patterns_stopword_metric :
    "the" ∈ stopwords ∧
    hasPattern (load_patterns ⟨[], ["the"], []⟩ []
      (AhoCorasickMatcher.init false)) "the" = true := by
  decide

end GreenGain
